import Mathlib

/-!
Verification of the bandit-detection pipeline of `python_scripts/docx_to_database.py`.

The development shallowly embeds the two functions the claims are about:

* `DocumentProcessor.find_bandit_patterns_in_lines` (the pattern matcher), and
* `DocumentProcessor.split_text_by_bandits` (the chunk builder),

together with the Python string primitives they use (`str.strip`, `str.split`,
`'x' in s`, and the two regular expressions `Age:\s*(\d+)` and
`\[IMAGE:\s*([^]]+)\]`).  Characters are modelled at the ASCII fragment the
document data lives in (`\s`, `\d`, `isupper`, `isalpha` are the ASCII cases of
the Python classes).  Fallible code is modelled with `Option`/`Except`: the
builder returns `Except.error` exactly where the Python raises (`range` with a
zero step).
-/

namespace Bandits

/-- ASCII model of Python `\s` / `str.isspace` for a single character. -/
def pyIsSpace (c : Char) : Bool :=
  c == ' ' || c == '\t' || c == '\n' || c == '\r' || c == '\x0b' || c == '\x0c'

/-- ASCII model of Python `\d` / `str.isdigit` for a single character. -/
def pyIsDigit (c : Char) : Bool := '0' ≤ c && c ≤ '9'

/-- ASCII model of Python `str.isupper` for a single character. -/
def pyIsUpper (c : Char) : Bool := 'A' ≤ c && c ≤ 'Z'

/-- ASCII model of Python `str.islower` for a single character. -/
def pyIsLower (c : Char) : Bool := 'a' ≤ c && c ≤ 'z'

/-- ASCII model of Python `str.isalpha` for a single character. -/
def pyIsAlpha (c : Char) : Bool := pyIsUpper c || pyIsLower c

/-- Does the second character list start with the first one?  (Model of a
regular-expression literal matching at the current position.) -/
def startsWithChars : List Char → List Char → Bool
  | [], _ => true
  | _ :: _, [] => false
  | a :: as, b :: bs => a == b && startsWithChars as bs

/-- Does the character list contain the needle as a contiguous sublist?
(Model of Python `needle in haystack` on strings.) -/
def hasSubChars (needle : List Char) : List Char → Bool
  | [] => needle.isEmpty
  | c :: rest => startsWithChars needle (c :: rest) || hasSubChars needle rest

/-- Python `pat in hay` for strings. -/
def strContains (hay pat : String) : Bool := hasSubChars pat.toList hay.toList

/-- Python `str.strip()` on a character list: drop whitespace on both ends. -/
def pyStripList (l : List Char) : List Char :=
  ((l.dropWhile pyIsSpace).reverse.dropWhile pyIsSpace).reverse

/-- Python `str.strip()`. -/
def pyStrip (s : String) : String := String.mk (pyStripList s.toList)

/-- Worker for `pySplitWs`: `cur` holds the (reversed) token being read. -/
def pySplitWsAux (cur : List Char) : List Char → List (List Char)
  | [] => if cur.isEmpty then [] else [cur.reverse]
  | c :: rest =>
    if pyIsSpace c then
      if cur.isEmpty then pySplitWsAux [] rest
      else cur.reverse :: pySplitWsAux [] rest
    else pySplitWsAux (c :: cur) rest

/-- Python `str.split()` with no separator: split on whitespace runs,
dropping empty tokens. -/
def pySplitWs (l : List Char) : List (List Char) := pySplitWsAux [] l

/-- Python `text.split('\n')` on a character list (worker). -/
def splitLinesAux (cur : List Char) : List Char → List String
  | [] => [String.mk cur.reverse]
  | c :: rest =>
    if c == '\n' then String.mk cur.reverse :: splitLinesAux [] rest
    else splitLinesAux (c :: cur) rest

/-- Python `text.split('\n')`. -/
def pySplitLines (text : String) : List String := splitLinesAux [] text.toList

/-- Python `s.split('_')` on a character list (worker). -/
def splitUnderAux (cur : List Char) : List Char → List String
  | [] => [String.mk cur.reverse]
  | c :: rest =>
    if c == '_' then String.mk cur.reverse :: splitUnderAux [] rest
    else splitUnderAux (c :: cur) rest

/-- Python `s.split('_')`. -/
def pySplitUnder (s : String) : List String := splitUnderAux [] s.toList

/-- ASCII model of Python `str.lower` on a single character. -/
def pyToLowerChar (c : Char) : Char :=
  if pyIsUpper c then Char.ofNat (c.toNat + 32) else c

/-- ASCII model of Python `str.lower`. -/
def pyToLower (s : String) : String := String.mk (s.toList.map pyToLowerChar)

/-- After the literal `Age:` of the regex `Age:\s*(\d+)`: skip whitespace and
read a nonempty maximal digit run (the capture group). -/
def digitsAfterWs (l : List Char) : Option (List Char) :=
  let rest := l.dropWhile pyIsSpace
  let ds := rest.takeWhile pyIsDigit
  if ds.isEmpty then none else some ds

/-- Model of `re.search(r'Age:\s*(\d+)', line)`: scan positions left to right,
return the capture group of the first full match. -/
def searchAge : List Char → Option (List Char)
  | [] => none
  | c :: rest =>
    if startsWithChars ("Age:".toList) (c :: rest) then
      match digitsAfterWs ((c :: rest).drop 4) with
      | some ds => some ds
      | none => searchAge rest
    else searchAge rest

/-- Capture group of `re.search(r'Age:\s*(\d+)', s)` as a string. -/
def parseAgeStr (s : String) : Option String := (searchAge s.toList).map String.mk

/-- After the literal `[IMAGE:` of the regex `\[IMAGE:\s*([^]]+)\]`: the greedy
`\s*` takes the whitespace run, the group `[^]]+` takes the following run of
characters other than a right bracket, and a right bracket must follow; when
the group would be empty the engine backtracks one whitespace character into
the group. -/
def imageGroupAfter (l : List Char) : Option (List Char) :=
  let w := l.takeWhile pyIsSpace
  let r1 := l.dropWhile pyIsSpace
  let n := r1.takeWhile (fun c => !(c == ']'))
  let r2 := r1.dropWhile (fun c => !(c == ']'))
  if r2.isEmpty then none
  else if !n.isEmpty then some n
  else
    match w.getLast? with
    | some c => some [c]
    | none => none

/-- Model of `re.search(r'\[IMAGE:\s*([^]]+)\]', s)`: scan positions left to
right, return the capture group of the first full match. -/
def searchImage : List Char → Option (List Char)
  | [] => none
  | c :: rest =>
    if startsWithChars ("[IMAGE:".toList) (c :: rest) then
      match imageGroupAfter ((c :: rest).drop 7) with
      | some g => some g
      | none => searchImage rest
    else searchImage rest

/-- Capture group of the image-placeholder regex as a string. -/
def imageIdOf (s : String) : Option String := (searchImage s.toList).map String.mk

/-- The single-token name test of the matcher: the stripped line splits into
exactly one word, whose first character is uppercase, which is all-alphabetic
and at least two characters long. -/
def nameOk (ls : String) : Bool :=
  match pySplitWs ls.toList with
  | [w] =>
    match w with
    | c :: _ => pyIsUpper c && w.all pyIsAlpha && decide (1 < w.length)
    | [] => false
  | _ => false

/-- A match record of `find_bandit_patterns_in_lines` (the Python dict with
keys `line_index`, `image_id`, `name`, `age`, `name_line_index`,
`image_line`). -/
structure BanditPattern where
  line_index : Nat
  image_id : String
  name : String
  age : String
  name_line_index : Nat
  image_line : String
deriving DecidableEq, Repr

/-- The descending index list `range(i-1, max(i-10, start_index-1), -1)` of the
backward search (indices from `i-1` down to `max (i-9) startIdx`). -/
def backIdxs (i startIdx : Nat) : List Nat :=
  (List.range' (max (i - 9) startIdx) (i - max (i - 9) startIdx)).reverse

/-- The backward scan of the matcher: walk the given indices, remember the
first line passing the name test and the first line with a parsable image
placeholder, stop once both are found. -/
def lookBack (lines : List String) :
    Option (Nat × String) → Option (Nat × String × String) → List Nat →
      Option (Nat × String) × Option (Nat × String × String)
  | fn, fi, [] => (fn, fi)
  | fn, fi, j :: rest =>
    let ls := pyStrip (lines.getD j "")
    let fn' := if fn.isNone && !ls.isEmpty && !strContains ls "[IMAGE:" && nameOk ls
      then some (j, ls) else fn
    let fi' := if strContains ls "[IMAGE:" && fi.isNone then
        match imageIdOf ls with
        | some g => some (j, g, ls)
        | none => fi
      else fi
    if fn'.isSome && fi'.isSome then (fn', fi')
    else lookBack lines fn' fi' rest

/-- Python truthiness test `if max_bandits and len(found_patterns) >= max_bandits`:
false when the bound is `None` or `0`. -/
def maxReached (mb : Option Nat) (n : Nat) : Bool :=
  match mb with
  | none => false
  | some m => !(m == 0) && decide (m ≤ n)

/-- Main scan of the matcher over the enumerated line list: at every line
containing `Age:` with a parsable age, look backwards for a name and an image
placeholder; record a pattern when both are found, and stop once the
caller-supplied maximum is reached. -/
def findFrom (lines : List String) (startIdx : Nat) (mb : Option Nat) :
    Nat → List (Nat × String) → List BanditPattern
  | _, [] => []
  | count, (i, line) :: rest =>
    if strContains line "Age:" then
      match parseAgeStr line with
      | some age =>
        match lookBack lines none none (backIdxs i startIdx) with
        | (some fn, some fi) =>
          let p : BanditPattern :=
            { line_index := fi.1, image_id := fi.2.1, name := fn.2, age := age,
              name_line_index := fn.1, image_line := fi.2.2 }
          if maxReached mb (count + 1) then [p]
          else p :: findFrom lines startIdx mb (count + 1) rest
        | _ => findFrom lines startIdx mb count rest
      | none => findFrom lines startIdx mb count rest
    else findFrom lines startIdx mb count rest

/-- Embedding of `DocumentProcessor.find_bandit_patterns_in_lines(lines, start_index, max_bandits)`. -/
def find_bandit_patterns_in_lines (lines : List String) (startIdx : Nat := 0)
    (mb : Option Nat := none) : List BanditPattern :=
  findFrom lines startIdx mb 0 ((lines.drop startIdx).enumFrom startIdx)

/-- The composite record key `f"{name}_{age}_{image_id}"` built by
`extract_text_with_placeholders` for every pattern. -/
def bandit_key (p : BanditPattern) : String :=
  p.name ++ "_" ++ p.age ++ "_" ++ p.image_id

/-- The duplicate-suppression loop of `extract_text_with_placeholders`: append
each pattern's key to `found_bandits` unless it is already present. -/
def collectBandits (ps : List BanditPattern) : List String :=
  ps.foldl (fun acc p => if bandit_key p ∈ acc then acc else acc ++ [bandit_key p]) []

/-- One parsed entry of the `detected_bandits` list of `split_text_by_bandits`
(the Python dict with keys `name`, `age`, `image_id`, `full_key`). -/
structure BanditInfo where
  name : String
  age : Option String
  image_id : Option String
  full_key : String
deriving DecidableEq, Repr

/-- Parsing of one `name_age_imageid` key in `split_text_by_bandits`: split on
underscores; with at least three parts the remaining parts are re-joined into
the image id and an empty or literal `None` age becomes `None`; otherwise the
old-format fallback applies. -/
def parseBanditKey (bandit : String) : BanditInfo :=
  let parts := pySplitUnder bandit
  if 3 ≤ parts.length then
    { name := parts.getD 0 "",
      age := if parts.getD 1 "" ≠ "" ∧ parts.getD 1 "" ≠ "None"
        then some (parts.getD 1 "") else none,
      image_id := some (String.intercalate "_" (parts.drop 2)),
      full_key := bandit }
  else
    { name := if 0 < parts.length then parts.getD 0 "" else "Unknown",
      age := if 1 < parts.length then some (parts.getD 1 "") else none,
      image_id := none,
      full_key := bandit }

/-- The builder's name comparison: case-insensitive equality or containment in
either direction. -/
def nameMatches (info : BanditInfo) (p : BanditPattern) : Bool :=
  pyToLower info.name == pyToLower p.name ||
    strContains p.name info.name || strContains info.name p.name

/-- The builder's age comparison (`None` never equals a matched age string). -/
def ageMatches (info : BanditInfo) (p : BanditPattern) : Bool :=
  info.age == some p.age

/-- The builder's image comparison: vacuous when the parsed image id is falsy
(`None` or empty), exact equality with the current line's id otherwise. -/
def imageMatches (info : BanditInfo) (cid : Option String) : Bool :=
  match info.image_id with
  | some s => if s.isEmpty then true else some s == cid
  | none => true

/-- Is line `i` a section trigger in `split_text_by_bandits`: a stripped line
containing an image placeholder whose parsed id matches a pattern at this very
line index, that pattern in turn matching a parsed detected-bandit entry. -/
def isTrigger (allP : List BanditPattern) (binfo : List BanditInfo)
    (i : Nat) (line : String) : Bool :=
  let ls := pyStrip line
  if strContains ls "[IMAGE:" then
    let cid := imageIdOf ls
    match allP.find? (fun p => p.line_index == i && some p.image_id == cid) with
    | some p =>
      (binfo.find? (fun info =>
        nameMatches info p && ageMatches info p && imageMatches info cid)).isSome
    | none => false
  else false

/-- The accumulation loop of `split_text_by_bandits`, instrumented to return
every accumulated run of lines (the below-threshold runs included): a trigger
line closes the current accumulator and opens a new one holding only the
trigger line; any other line is appended to the current accumulator. -/
def buildParts (allP : List BanditPattern) (binfo : List BanditInfo) :
    List (Nat × String) → List String → List (List String)
  | [], cur => [cur]
  | (i, line) :: rest, cur =>
    if isTrigger allP binfo i line then cur :: buildParts allP binfo rest [line]
    else buildParts allP binfo rest (cur ++ [line])

/-- The content threshold of the builder: a chunk is kept when its stripped
text is longer than 100 characters. -/
def keepChunk (s : String) : Bool := 100 < (pyStrip s).length

/-- Worker for `chunksOf`: `cur` holds the (reversed) lines of the chunk being
filled, `n` the number of lines it still accepts. -/
def chunksGo (cs : Nat) : List String → List String → Nat → List (List String)
  | [], cur, _ => [cur.reverse]
  | a :: rest, cur, n + 1 => chunksGo cs rest (a :: cur) n
  | a :: rest, cur, 0 => cur.reverse :: chunksGo cs rest [a] (cs - 1)

/-- Contiguous chunks of `cs` lines each, the last one possibly shorter
(`lines[i:i+chunk_size]` for `i` running over
`range(0, len(lines), chunk_size)`). -/
def chunksOf (cs : Nat) : List String → List (List String)
  | [] => []
  | a :: rest => chunksGo cs rest [a] (cs - 1)

/-- The fixed-chunk fallback of the builder with chunk size `cs`: join each
slice and keep the ones over the content threshold. -/
def fixedChunks (lines : List String) (cs : Nat) : List String :=
  ((chunksOf cs lines).map (String.intercalate "\n")).filter keepChunk

/-- Embedding of `DocumentProcessor.split_text_by_bandits(text, detected_bandits)`.  The
`Except.error` value models the `ValueError` the Python raises when the
fallback path computes `chunk_size = len(lines) // 10 == 0` and calls
`range(0, len(lines), 0)`. -/
def split_text_by_bandits (text : String) (detected_bandits : List String) :
    Except String (List String) :=
  let lines := pySplitLines text
  let binfo := detected_bandits.map parseBanditKey
  let allP := find_bandit_patterns_in_lines lines 0 none
  let sections :=
    ((buildParts allP binfo (lines.enumFrom 0) []).map
      (String.intercalate "\n")).filter keepChunk
  if 1 ≤ sections.length then Except.ok sections
  else
    let cs := lines.length / 10
    if cs == 0 then Except.error "ValueError: range() arg 3 must not be zero"
    else Except.ok (fixedChunks lines cs)

/-! Checked variant of the matcher.  Every list indexing of the Python
(`lines[j]` in the backward window, `words[0][0]` in the name test) is
performed through `Option`: `none` models an `IndexError`.  The safety claim
is that this variant never returns `none`. -/

/-- Name test with the `words[0][0]` character access made explicit: `none`
models an out-of-range character access on an empty token. -/
def nameOkChecked (ls : String) : Option Bool :=
  match pySplitWs ls.toList with
  | [w] =>
    match w with
    | c :: _ => some (pyIsUpper c && w.all pyIsAlpha && decide (1 < w.length))
    | [] => none
  | _ => some false

/-- Backward scan with the `lines[j]` access made explicit. -/
def lookBackChecked (lines : List String) :
    Option (Nat × String) → Option (Nat × String × String) → List Nat →
      Option (Option (Nat × String) × Option (Nat × String × String))
  | fn, fi, [] => some (fn, fi)
  | fn, fi, j :: rest => do
    let raw ← lines.get? j
    let ls := pyStrip raw
    let nm ← if fn.isNone && !ls.isEmpty && !strContains ls "[IMAGE:"
      then nameOkChecked ls else some false
    let fn' := if fn.isNone && !ls.isEmpty && !strContains ls "[IMAGE:" && nm
      then some (j, ls) else fn
    let fi' := if strContains ls "[IMAGE:" && fi.isNone then
        match imageIdOf ls with
        | some g => some (j, g, ls)
        | none => fi
      else fi
    if fn'.isSome && fi'.isSome then some (fn', fi')
    else lookBackChecked lines fn' fi' rest

/-- Main scan of the checked matcher. -/
def findFromChecked (lines : List String) (startIdx : Nat) (mb : Option Nat) :
    Nat → List (Nat × String) → Option (List BanditPattern)
  | _, [] => some []
  | count, (i, line) :: rest =>
    if strContains line "Age:" then
      match parseAgeStr line with
      | some age =>
        match lookBackChecked lines none none (backIdxs i startIdx) with
        | none => none
        | some (some fn, some fi) =>
          let p : BanditPattern :=
            { line_index := fi.1, image_id := fi.2.1, name := fn.2, age := age,
              name_line_index := fn.1, image_line := fi.2.2 }
          if maxReached mb (count + 1) then some [p]
          else match findFromChecked lines startIdx mb (count + 1) rest with
            | none => none
            | some ps => some (p :: ps)
        | some _ => findFromChecked lines startIdx mb count rest
      | none => findFromChecked lines startIdx mb count rest
    else findFromChecked lines startIdx mb count rest

/-- Checked `find_bandit_patterns_in_lines`: `none` models any raised
`IndexError`. -/
def find_bandit_patterns_checked (lines : List String) (startIdx : Nat)
    (mb : Option Nat) : Option (List BanditPattern) :=
  findFromChecked lines startIdx mb 0 ((lines.drop startIdx).enumFrom startIdx)

/-! Concrete inputs used by the witnesses and counterexamples. -/

/-- The one-record input of the specification's worked example: an image
placeholder, a name, an age line, and more than 100 characters of trailing
text. -/
def demo6Text : String :=
  "[IMAGE: img_01]\nMaria\nAge: 30\nxxxxxxxxxxxxxxxxxxxxxxxxxxxxxxxxxxxxxxxxxxxxxxxxxxxxxxxxxxxxxxxxxxxxxxxxxxxxxxxxxxxxxxxxxxxxxxxxxxxxxxxxxxxx"

/-- The single match the matcher finds in `demo6Text`. -/
def demo6Pat : BanditPattern :=
  { line_index := 0, image_id := "img_01", name := "Maria", age := "30",
    name_line_index := 1, image_line := "[IMAGE: img_01]" }

/-- Twelve ten-character lines with no `Age:` marker: more than 100 characters
of text and at least ten lines. -/
def demo2Text : String :=
  "aaaaaaaaaa\naaaaaaaaaa\naaaaaaaaaa\naaaaaaaaaa\naaaaaaaaaa\naaaaaaaaaa\naaaaaaaaaa\naaaaaaaaaa\naaaaaaaaaa\naaaaaaaaaa\naaaaaaaaaa\naaaaaaaaaa"

/-- Eleven lines of preamble text followed by a well-formed record and nine
lines of record body. -/
def demo4Text : String :=
  "aaaaaaaaaaaa\naaaaaaaaaaaa\naaaaaaaaaaaa\naaaaaaaaaaaa\naaaaaaaaaaaa\naaaaaaaaaaaa\naaaaaaaaaaaa\naaaaaaaaaaaa\naaaaaaaaaaaa\naaaaaaaaaaaa\naaaaaaaaaaaa\n[IMAGE: img_01]\nMaria\nAge: 30\nbbbbbbbbbbbb\nbbbbbbbbbbbb\nbbbbbbbbbbbb\nbbbbbbbbbbbb\nbbbbbbbbbbbb\nbbbbbbbbbbbb\nbbbbbbbbbbbb\nbbbbbbbbbbbb\nbbbbbbbbbbbb"

/-- The preamble chunk the builder emits on `demo4Text`. -/
def demo4A : String :=
  "aaaaaaaaaaaa\naaaaaaaaaaaa\naaaaaaaaaaaa\naaaaaaaaaaaa\naaaaaaaaaaaa\naaaaaaaaaaaa\naaaaaaaaaaaa\naaaaaaaaaaaa\naaaaaaaaaaaa\naaaaaaaaaaaa\naaaaaaaaaaaa"

/-- The record chunk the builder emits on `demo4Text`. -/
def demo4B : String :=
  "[IMAGE: img_01]\nMaria\nAge: 30\nbbbbbbbbbbbb\nbbbbbbbbbbbb\nbbbbbbbbbbbb\nbbbbbbbbbbbb\nbbbbbbbbbbbb\nbbbbbbbbbbbb\nbbbbbbbbbbbb\nbbbbbbbbbbbb\nbbbbbbbbbbbb"

/-! Structural lemmas about the builder's accumulation. -/

set_option maxRecDepth 100000

/-- The accumulated runs of the builder partition the input: flattening them
gives back the current accumulator followed by the remaining lines. -/
theorem buildParts_join (allP : List BanditPattern) (binfo : List BanditInfo) :
    ∀ (pairs : List (Nat × String)) (cur : List String),
      (buildParts allP binfo pairs cur).join = cur ++ pairs.map Prod.snd := by
  intro pairs
  induction pairs with
  | nil => intro cur; simp [buildParts]
  | cons pr rest ih =>
    intro cur
    obtain ⟨i, line⟩ := pr
    by_cases h : isTrigger allP binfo i line = true
    · simp [buildParts, h, ih]
    · simp [buildParts, h, ih]

/-- Flattening the filled chunks gives back the reversed accumulator followed
by the remaining lines. -/
theorem chunksGo_join (cs : Nat) :
    ∀ (rest cur : List String) (n : Nat),
      (chunksGo cs rest cur n).join = cur.reverse ++ rest := by
  intro rest
  induction rest with
  | nil => intro cur n; simp [chunksGo]
  | cons a rest ih =>
    intro cur n
    match n with
    | 0 => simp [chunksGo, ih]
    | n + 1 => simpa [chunksGo] using ih (a :: cur) n

/-- The fixed chunks partition the input lines. -/
theorem chunksOf_join (cs : Nat) (l : List String) : (chunksOf cs l).join = l := by
  match l with
  | [] => simp [chunksOf]
  | a :: rest => simp [chunksOf, chunksGo_join]

/-- Shape of every successful run of the builder: the returned chunks are the
joins of a partition of the input lines, filtered by the content threshold.
Both the pattern-based path and the fixed-chunk fallback have this shape. -/
theorem split_ok_shape (text : String) (dbs : List String) (secs : List String)
    (h : split_text_by_bandits text dbs = Except.ok secs) :
    ∃ parts : List (List String), parts.join = pySplitLines text ∧
      secs = (parts.map (String.intercalate "\n")).filter keepChunk := by
  unfold split_text_by_bandits at h
  dsimp only at h
  split at h
  · refine ⟨buildParts (find_bandit_patterns_in_lines (pySplitLines text) 0 none)
      (dbs.map parseBanditKey) ((pySplitLines text).enumFrom 0) [], ?_, ?_⟩
    · rw [buildParts_join]
      simp [List.enumFrom_map_snd]
    · injection h with h2
      exact h2.symm
  · split at h
    · exact absurd h (by simp)
    · refine ⟨chunksOf ((pySplitLines text).length / 10) (pySplitLines text),
        chunksOf_join _ _, ?_⟩
      injection h with h2
      rw [← h2]
      rfl

/-- C1.  The claim says the chunk builder never raises and that empty or
malformed input falls through to the fixed-chunk fallback.  The code disagrees:
on the empty input (one line after splitting, no section over the threshold)
the fallback computes `chunk_size = len(lines) // 10 == 0` and
`range(0, len(lines), 0)` raises `ValueError`.  This theorem evaluates the
embedded builder at that failing input. -/
theorem c1_empty_input_raises :
    split_text_by_bandits "" [] =
      Except.error "ValueError: range() arg 3 must not be zero" := by rfl

/-- C5.  Every chunk list a successful run of the builder returns is obtained
from a partition of the input line sequence into contiguous runs, in input
order, by joining each run and keeping exactly the runs over the content
threshold: the chunks are pairwise disjoint contiguous runs in input order,
and flattening all accumulated runs (the dropped below-threshold ones
included) reconstructs the original line sequence. -/
theorem c5_chunks_partition_input (text : String) (dbs : List String)
    (secs : List String) (h : split_text_by_bandits text dbs = Except.ok secs) :
    ∃ parts : List (List String), parts.join = pySplitLines text ∧
      secs = (parts.map (String.intercalate "\n")).filter keepChunk :=
  split_ok_shape text dbs secs h

/-- Witness for C5 at the worked example. -/
theorem c5_chunks_partition_input_witness :
    ∃ parts : List (List String), parts.join = pySplitLines demo6Text ∧
      [demo6Text] = (parts.map (String.intercalate "\n")).filter keepChunk :=
  c5_chunks_partition_input demo6Text ["Maria_30_img_01"] [demo6Text] (by rfl)

/-- C6.  On the worked example input (image placeholder at line 0, `Maria` at
line 1, `Age: 30` at line 2, more than 100 characters of trailing text) the
matcher returns exactly one match with name `Maria`, age `30`, and image id
`img_01`, and the builder returns exactly one chunk: the whole input. -/
theorem c6_worked_example :
    find_bandit_patterns_in_lines (pySplitLines demo6Text) 0 none = [demo6Pat] ∧
    split_text_by_bandits demo6Text ["Maria_30_img_01"] = Except.ok [demo6Text] :=
  ⟨by decide, by rfl⟩

/-- C7.  Every chunk a successful run of the builder emits has stripped text
longer than 100 characters: accumulated chunks at or below the content
threshold are dropped, both when a next record start closes them and at end of
input (and equally on the fallback path). -/
theorem c7_threshold_filter (text : String) (dbs : List String)
    (secs : List String) (h : split_text_by_bandits text dbs = Except.ok secs) :
    ∀ s ∈ secs, 100 < (pyStrip s).length := by
  obtain ⟨parts, -, hsecs⟩ := split_ok_shape text dbs secs h
  intro s hs
  rw [hsecs] at hs
  have := List.mem_filter.mp hs
  exact of_decide_eq_true this.2

/-- Witness for C7 at the worked example. -/
theorem c7_threshold_filter_witness : 100 < (pyStrip demo6Text).length :=
  c7_threshold_filter demo6Text ["Maria_30_img_01"] [demo6Text] (by rfl)
    demo6Text (by decide)

/-- The first accumulated run extends the accumulator it started from. -/
theorem buildParts_head (allP : List BanditPattern) (binfo : List BanditInfo) :
    ∀ (pairs : List (Nat × String)) (cur : List String),
      ∃ pre, (buildParts allP binfo pairs cur).head? = some (cur ++ pre) := by
  intro pairs
  induction pairs with
  | nil => intro cur; exact ⟨[], by simp [buildParts]⟩
  | cons pr rest ih =>
    intro cur
    obtain ⟨i, line⟩ := pr
    by_cases h : isTrigger allP binfo i line = true
    · exact ⟨[], by simp [buildParts, h]⟩
    · obtain ⟨pre, hpre⟩ := ih (cur ++ [line])
      exact ⟨[line] ++ pre, by simp [buildParts, h, hpre]⟩

/-- If no line of the input is a trigger, the builder accumulates everything
into a single run. -/
theorem buildParts_of_no_trigger (allP : List BanditPattern)
    (binfo : List BanditInfo) :
    ∀ (pairs : List (Nat × String)) (cur : List String),
      (∀ pr ∈ pairs, isTrigger allP binfo pr.1 pr.2 = false) →
      buildParts allP binfo pairs cur = [cur ++ pairs.map Prod.snd] := by
  intro pairs
  induction pairs with
  | nil => intro cur _; simp [buildParts]
  | cons pr rest ih =>
    intro cur hno
    obtain ⟨i, line⟩ := pr
    have h0 : isTrigger allP binfo i line = false := hno (i, line) (by simp)
    rw [buildParts]
    rw [if_neg (by simp [h0])]
    rw [ih (cur ++ [line]) (fun pr hpr => hno pr (List.mem_cons_of_mem _ hpr))]
    simp

/-- C4 (counterexample).  On `demo4Text` with the confirmed record
`Maria_30_img_01` the builder emits two chunks on the primary path, and the
first line of the first emitted chunk is the plain preamble line
`aaaaaaaaaaaa`, which contains no image placeholder: not every emitted chunk
starts at a confirmed record's image-placeholder line. -/
theorem c4_counterexample :
    split_text_by_bandits demo4Text ["Maria_30_img_01"] =
      Except.ok [demo4A, demo4B] ∧
    (pySplitLines demo4A).headD "" = "aaaaaaaaaaaa" ∧
    strContains "aaaaaaaaaaaa" "[IMAGE:" = false :=
  ⟨by rfl, by rfl, by decide⟩

/-- C4 (amended).  Every accumulated chunk other than the leading accumulator
starts at a trigger line, that is, at the line containing the image
placeholder of a confirmed record; only the leading accumulator (the lines
before the first recognized record start) can begin with a non-trigger
line. -/
theorem c4_nonleading_chunks_start_at_triggers
    (allP : List BanditPattern) (binfo : List BanditInfo) :
    ∀ (pairs : List (Nat × String)) (cur : List String)
      (part : List String),
      part ∈ (buildParts allP binfo pairs cur).tail →
      ∃ i line, (i, line) ∈ pairs ∧ isTrigger allP binfo i line = true ∧
        part.head? = some line := by
  intro pairs
  induction pairs with
  | nil => intro cur part hp; simp [buildParts] at hp
  | cons pr rest ih =>
    intro cur part hp
    obtain ⟨i, line⟩ := pr
    by_cases h : isTrigger allP binfo i line = true
    · rw [buildParts, if_pos h] at hp
      simp only [List.tail_cons] at hp
      obtain ⟨pre, hpre⟩ := buildParts_head allP binfo rest [line]
      match hL : buildParts allP binfo rest [line] with
      | [] => rw [hL] at hpre; simp at hpre
      | x :: xs =>
        rw [hL] at hpre hp
        simp only [List.head?_cons, Option.some.injEq] at hpre
        rcases List.mem_cons.mp hp with hx | hx
        · refine ⟨i, line, by simp, h, ?_⟩
          rw [hx, hpre]
          simp
        · have hx' : part ∈ (buildParts allP binfo rest [line]).tail := by
            rw [hL]; exact hx
          obtain ⟨i', line', hmem, htr, hhd⟩ := ih [line] part hx'
          exact ⟨i', line', List.mem_cons_of_mem _ hmem, htr, hhd⟩
    · rw [buildParts, if_neg h] at hp
      obtain ⟨i', line', hmem, htr, hhd⟩ := ih (cur ++ [line]) part hp
      exact ⟨i', line', List.mem_cons_of_mem _ hmem, htr, hhd⟩

/-- Witness for C4 (amended): the record chunk of `demo4Text` is a non-leading
accumulated chunk and starts at the trigger line `[IMAGE: img_01]`. -/
theorem c4_nonleading_chunks_start_at_triggers_witness :
    ∃ i line,
      (i, line) ∈ (pySplitLines demo4Text).enumFrom 0 ∧
      isTrigger (find_bandit_patterns_in_lines (pySplitLines demo4Text) 0 none)
        (["Maria_30_img_01"].map parseBanditKey) i line = true ∧
      (pySplitLines demo4B).head? = some line :=
  c4_nonleading_chunks_start_at_triggers
    (find_bandit_patterns_in_lines (pySplitLines demo4Text) 0 none)
    (["Maria_30_img_01"].map parseBanditKey)
    ((pySplitLines demo4Text).enumFrom 0) [] (pySplitLines demo4B) (by decide)

/-- If no scanned line contains `Age:`, the matcher's scan finds nothing. -/
theorem findFrom_eq_nil_of_no_age (lines : List String) (s : Nat)
    (mb : Option Nat) :
    ∀ (pairs : List (Nat × String)) (count : Nat),
      (∀ pr ∈ pairs, strContains pr.2 "Age:" = false) →
      findFrom lines s mb count pairs = [] := by
  intro pairs
  induction pairs with
  | nil => intro count _; rfl
  | cons pr rest ih =>
    intro count hno
    obtain ⟨i, line⟩ := pr
    have h0 : strContains line "Age:" = false := hno (i, line) (by simp)
    rw [findFrom, if_neg (by simp [h0])]
    exact ih count (fun pr hpr => hno pr (List.mem_cons_of_mem _ hpr))

/-- With no detectable pattern, no line is a trigger. -/
theorem isTrigger_nil (binfo : List BanditInfo) (i : Nat) (line : String) :
    isTrigger [] binfo i line = false := by
  unfold isTrigger
  dsimp only
  split <;> simp [List.find?]

/-- If no line of the input contains an `Age:` marker, the matcher returns the
empty match list. -/
theorem find_eq_nil_of_no_age (lines : List String) (s : Nat) (mb : Option Nat)
    (h : ∀ l ∈ lines, strContains l "Age:" = false) :
    find_bandit_patterns_in_lines lines s mb = [] := by
  unfold find_bandit_patterns_in_lines
  apply findFrom_eq_nil_of_no_age
  intro pr hpr
  apply h
  have hsnd := List.enumFrom_map_snd s (lines.drop s)
  have : pr.2 ∈ ((lines.drop s).enumFrom s).map Prod.snd :=
    List.mem_map_of_mem Prod.snd hpr
  rw [hsnd] at this
  exact List.mem_of_mem_drop this

/-- C2 (counterexample).  `demo2Text` has no `Age:` marker on any line, yet
the builder does not return the fixed-chunk fallback split: the whole-input
accumulator passes the content threshold, so the primary path returns the
single whole-input chunk, which differs from the fallback's fixed chunks. -/
theorem c2_counterexample :
    ((pySplitLines demo2Text).all (fun l => !strContains l "Age:")) = true ∧
    split_text_by_bandits demo2Text [] = Except.ok [demo2Text] ∧
    [demo2Text] ≠
      fixedChunks (pySplitLines demo2Text) ((pySplitLines demo2Text).length / 10) :=
  ⟨by decide, by rfl, by decide⟩

/-- C2 (amended).  If no line of the input contains an `Age:` marker, the
matcher returns the empty match list; the builder then accumulates the whole
input into one run and returns it as a single chunk whenever its stripped text
exceeds the content threshold, falling through to the fixed-chunk fallback
(or the zero-step `range` error on inputs of fewer than ten lines) only
otherwise. -/
theorem c2_no_age_behavior (text : String) (dbs : List String)
    (h : (pySplitLines text).all (fun l => !strContains l "Age:") = true) :
    find_bandit_patterns_in_lines (pySplitLines text) 0 none = [] ∧
    split_text_by_bandits text dbs =
      (if keepChunk (String.intercalate "\n" (pySplitLines text)) then
        Except.ok [String.intercalate "\n" (pySplitLines text)]
      else if (pySplitLines text).length / 10 == 0 then
        Except.error "ValueError: range() arg 3 must not be zero"
      else
        Except.ok (fixedChunks (pySplitLines text)
          ((pySplitLines text).length / 10))) := by
  have hno : ∀ l ∈ pySplitLines text, strContains l "Age:" = false := by
    intro l hl
    have := List.all_eq_true.mp h l hl
    simpa using this
  have hfind : find_bandit_patterns_in_lines (pySplitLines text) 0 none = [] :=
    find_eq_nil_of_no_age _ 0 none hno
  refine ⟨hfind, ?_⟩
  unfold split_text_by_bandits
  dsimp only
  rw [show find_bandit_patterns_in_lines (pySplitLines text) = [] from hfind]
  rw [buildParts_of_no_trigger [] (dbs.map parseBanditKey) _ []
    (fun pr _ => isTrigger_nil _ pr.1 pr.2)]
  rw [List.enumFrom_map_snd]
  simp only [List.nil_append, List.map_cons, List.map_nil]
  by_cases hk : keepChunk (String.intercalate "\n" (pySplitLines text)) = true
  · rw [if_pos hk]
    simp [List.filter, hk]
  · rw [if_neg hk]
    have hkf : keepChunk (String.intercalate "\n" (pySplitLines text)) = false :=
      Bool.eq_false_iff.mpr hk
    simp [List.filter, hkf]

/-- Witness for C2 (amended) at the no-marker input `demo2Text`. -/
theorem c2_no_age_behavior_witness :
    find_bandit_patterns_in_lines (pySplitLines demo2Text) 0 none = [] ∧
    split_text_by_bandits demo2Text [] =
      (if keepChunk (String.intercalate "\n" (pySplitLines demo2Text)) then
        Except.ok [String.intercalate "\n" (pySplitLines demo2Text)]
      else if (pySplitLines demo2Text).length / 10 == 0 then
        Except.error "ValueError: range() arg 3 must not be zero"
      else
        Except.ok (fixedChunks (pySplitLines demo2Text)
          ((pySplitLines demo2Text).length / 10))) :=
  c2_no_age_behavior demo2Text [] (by decide)

/-- During the scan with a positive maximum `m`, at most `m - count` further
patterns are produced once `count` patterns have been recorded. -/
theorem findFrom_length_le (lines : List String) (s m : Nat) (hm : 0 < m) :
    ∀ (pairs : List (Nat × String)) (count : Nat), count < m →
      (findFrom lines s (some m) count pairs).length ≤ m - count := by
  intro pairs
  induction pairs with
  | nil => intro count _; simp [findFrom]
  | cons pr rest ih =>
    intro count hc
    obtain ⟨i, line⟩ := pr
    rw [findFrom]
    split
    · match hpa : parseAgeStr line with
      | none => exact ih count hc
      | some age =>
        simp only
        match hlb : lookBack lines none none (backIdxs i s) with
        | (none, _) => exact ih count hc
        | (some fn, none) => exact ih count hc
        | (some fn, some fi) =>
          simp only
          by_cases hmx : maxReached (some m) (count + 1) = true
          · rw [if_pos hmx]
            simp only [List.length_cons, List.length_nil]
            omega
          · rw [if_neg hmx]
            have : ¬ m ≤ count + 1 := by
              intro hle
              apply hmx
              unfold maxReached
              have hm0 : (m == 0) = false := by
                simp only [beq_eq_false_iff_ne, ne_eq]
                omega
              simp [hm0, hle]
            have h2 := ih (count + 1) (by omega)
            simp only [List.length_cons]
            omega
    · exact ih count hc

/-- C8 (amended).  For every positive caller-supplied maximum match count `m`,
the matcher returns at most `m` matches: scanning stops once the maximum is
reached or end of input is reached. -/
theorem c8_max_count_bound (lines : List String) (s m : Nat) (hm : 0 < m) :
    (find_bandit_patterns_in_lines lines s (some m)).length ≤ m := by
  unfold find_bandit_patterns_in_lines
  have := findFrom_length_le lines s m hm ((lines.drop s).enumFrom s) 0 hm
  omega

/-- Witness for C8 (amended) with maximum 1 at the worked example. -/
theorem c8_max_count_bound_witness :
    0 < 1 ∧
      (find_bandit_patterns_in_lines (pySplitLines demo6Text) 0 (some 1)).length ≤ 1 :=
  ⟨by decide, c8_max_count_bound (pySplitLines demo6Text) 0 1 (by decide)⟩

/-- C8 (counterexample).  The claim quantifies over every caller-supplied
maximum match count, but a maximum of `0` is falsy in Python
(`if max_bandits and ...`), so the limit is never applied: at the worked
example the matcher called with maximum `0` returns one match, not at most
zero. -/
theorem c8_counterexample :
    find_bandit_patterns_in_lines (pySplitLines demo6Text) 0 (some 0) = [demo6Pat] ∧
    ¬ (find_bandit_patterns_in_lines (pySplitLines demo6Text) 0 (some 0)).length ≤ 0 :=
  ⟨by decide, by decide⟩

/-- Case analysis of one name-slot update of the backward scan. -/
theorem nameUpd_spec (lines : List String) (fn : Option (Nat × String))
    (j0 j : Nat) (n : String)
    (h : (if fn.isNone && !(pyStrip (lines.getD j0 "")).isEmpty &&
        !strContains (pyStrip (lines.getD j0 "")) "[IMAGE:" &&
        nameOk (pyStrip (lines.getD j0 ""))
      then some (j0, pyStrip (lines.getD j0 "")) else fn) = some (j, n)) :
    fn = some (j, n) ∨
      (j = j0 ∧ n = pyStrip (lines.getD j0 "") ∧ nameOk n = true ∧
        strContains n "[IMAGE:" = false ∧ n.isEmpty = false) := by
  by_cases hcn : (fn.isNone && !(pyStrip (lines.getD j0 "")).isEmpty &&
      !strContains (pyStrip (lines.getD j0 "")) "[IMAGE:" &&
      nameOk (pyStrip (lines.getD j0 ""))) = true
  · rw [if_pos hcn] at h
    simp only [Option.some.injEq, Prod.mk.injEq] at h
    obtain ⟨hj, hn⟩ := h
    simp only [Bool.and_eq_true, Bool.not_eq_true'] at hcn
    subst hn
    exact Or.inr ⟨hj.symm, rfl, hcn.2, hcn.1.2, hcn.1.1.2⟩
  · rw [if_neg hcn] at h
    exact Or.inl h

/-- Case analysis of one image-slot update of the backward scan. -/
theorem imageUpd_spec (lines : List String) (fi : Option (Nat × String × String))
    (j0 j : Nat) (g il : String)
    (h : (if strContains (pyStrip (lines.getD j0 "")) "[IMAGE:" && fi.isNone then
        match imageIdOf (pyStrip (lines.getD j0 "")) with
        | some g' => some (j0, g', pyStrip (lines.getD j0 ""))
        | none => fi
      else fi) = some (j, g, il)) :
    fi = some (j, g, il) ∨
      (j = j0 ∧ il = pyStrip (lines.getD j0 "") ∧
        strContains il "[IMAGE:" = true ∧ imageIdOf il = some g) := by
  by_cases hci : (strContains (pyStrip (lines.getD j0 "")) "[IMAGE:" && fi.isNone) = true
  · rw [if_pos hci] at h
    match himg : imageIdOf (pyStrip (lines.getD j0 "")) with
    | none => rw [himg] at h; exact Or.inl h
    | some g' =>
      rw [himg] at h
      simp only [Option.some.injEq, Prod.mk.injEq] at h
      obtain ⟨hj, hg, hil⟩ := h
      simp only [Bool.and_eq_true] at hci
      subst hil
      refine Or.inr ⟨hj.symm, rfl, hci.1, ?_⟩
      rw [himg, hg]
  · rw [if_neg hci] at h
    exact Or.inl h

/-- Where a `some` name slot of the backward scan comes from: either it was
already set, or it was set at one of the scanned indices, at a nonempty
stripped line with no image placeholder that passes the name test. -/
theorem lookBack_fst_spec (lines : List String) :
    ∀ (idxs : List Nat) (fn : Option (Nat × String))
      (fi : Option (Nat × String × String)) (j : Nat) (n : String),
      (lookBack lines fn fi idxs).1 = some (j, n) →
      fn = some (j, n) ∨
        (j ∈ idxs ∧ n = pyStrip (lines.getD j "") ∧ nameOk n = true ∧
          strContains n "[IMAGE:" = false ∧ n.isEmpty = false) := by
  intro idxs
  induction idxs with
  | nil => intro fn fi j n h; exact Or.inl h
  | cons j0 rest ih =>
    intro fn fi j n h
    rw [lookBack] at h
    by_cases hb : ((if fn.isNone && !(pyStrip (lines.getD j0 "")).isEmpty &&
          !strContains (pyStrip (lines.getD j0 "")) "[IMAGE:" &&
          nameOk (pyStrip (lines.getD j0 ""))
        then some (j0, pyStrip (lines.getD j0 "")) else fn).isSome &&
        (if strContains (pyStrip (lines.getD j0 "")) "[IMAGE:" && fi.isNone then
          match imageIdOf (pyStrip (lines.getD j0 "")) with
          | some g' => some (j0, g', pyStrip (lines.getD j0 ""))
          | none => fi
        else fi).isSome) = true
    · rw [if_pos hb] at h
      rcases nameUpd_spec lines fn j0 j n h with hl | ⟨hj, hr⟩
      · exact Or.inl hl
      · exact Or.inr ⟨hj ▸ List.mem_cons_self j0 rest, hj ▸ hr.1, hr.2.1, hr.2.2.1, hr.2.2.2⟩
    · rw [if_neg hb] at h
      rcases ih _ _ j n h with hl | ⟨hmem, hr⟩
      · rcases nameUpd_spec lines fn j0 j n hl with hl2 | ⟨hj, hr2⟩
        · exact Or.inl hl2
        · exact Or.inr ⟨hj ▸ List.mem_cons_self j0 rest, hj ▸ hr2.1, hr2.2.1, hr2.2.2.1, hr2.2.2.2⟩
      · exact Or.inr ⟨List.mem_cons_of_mem _ hmem, hr⟩

/-- Where a `some` image slot of the backward scan comes from: either it was
already set, or it was set at one of the scanned indices, at a stripped line
containing an image placeholder whose regular expression yields the stored
image id. -/
theorem lookBack_snd_spec (lines : List String) :
    ∀ (idxs : List Nat) (fn : Option (Nat × String))
      (fi : Option (Nat × String × String)) (j : Nat) (g il : String),
      (lookBack lines fn fi idxs).2 = some (j, g, il) →
      fi = some (j, g, il) ∨
        (j ∈ idxs ∧ il = pyStrip (lines.getD j "") ∧
          strContains il "[IMAGE:" = true ∧ imageIdOf il = some g) := by
  intro idxs
  induction idxs with
  | nil => intro fn fi j g il h; exact Or.inl h
  | cons j0 rest ih =>
    intro fn fi j g il h
    rw [lookBack] at h
    by_cases hb : ((if fn.isNone && !(pyStrip (lines.getD j0 "")).isEmpty &&
          !strContains (pyStrip (lines.getD j0 "")) "[IMAGE:" &&
          nameOk (pyStrip (lines.getD j0 ""))
        then some (j0, pyStrip (lines.getD j0 "")) else fn).isSome &&
        (if strContains (pyStrip (lines.getD j0 "")) "[IMAGE:" && fi.isNone then
          match imageIdOf (pyStrip (lines.getD j0 "")) with
          | some g' => some (j0, g', pyStrip (lines.getD j0 ""))
          | none => fi
        else fi).isSome) = true
    · rw [if_pos hb] at h
      rcases imageUpd_spec lines fi j0 j g il h with hl | ⟨hj, hr⟩
      · exact Or.inl hl
      · exact Or.inr ⟨hj ▸ List.mem_cons_self j0 rest, hj ▸ hr.1, hr.2.1, hr.2.2⟩
    · rw [if_neg hb] at h
      rcases ih _ _ j g il h with hl | ⟨hmem, hr⟩
      · rcases imageUpd_spec lines fi j0 j g il hl with hl2 | ⟨hj, hr2⟩
        · exact Or.inl hl2
        · exact Or.inr ⟨hj ▸ List.mem_cons_self j0 rest, hj ▸ hr2.1, hr2.2.1, hr2.2.2⟩
      · exact Or.inr ⟨List.mem_cons_of_mem _ hmem, hr⟩

/-- Bounds of the backward window: the scanned indices lie strictly before the
age line, at most nine below it, and at or after the start offset. -/
theorem mem_backIdxs {j i s : Nat} (h : j ∈ backIdxs i s) :
    s ≤ j ∧ i ≤ j + 9 ∧ j < i := by
  unfold backIdxs at h
  rw [List.mem_reverse, List.mem_range'_1] at h
  rcases max_cases (i - 9) s with ⟨he, hc⟩ | ⟨he, hc⟩ <;> rw [he] at h <;> omega

/-- Every pattern the scan records comes from a scanned pair whose line
contains a parsable age and whose backward scan filled both slots with the
pattern's fields. -/
theorem findFrom_mem (lines : List String) (s : Nat) (mb : Option Nat) :
    ∀ (pairs : List (Nat × String)) (count : Nat) (p : BanditPattern),
      p ∈ findFrom lines s mb count pairs →
      ∃ i line, (i, line) ∈ pairs ∧
        strContains line "Age:" = true ∧
        parseAgeStr line = some p.age ∧
        (lookBack lines none none (backIdxs i s)).1 =
          some (p.name_line_index, p.name) ∧
        (lookBack lines none none (backIdxs i s)).2 =
          some (p.line_index, p.image_id, p.image_line) := by
  intro pairs
  induction pairs with
  | nil => intro count p hp; simp [findFrom] at hp
  | cons pr rest ih =>
    intro count p hp
    obtain ⟨i, line⟩ := pr
    rw [findFrom] at hp
    by_cases hage : strContains line "Age:" = true
    case neg =>
      rw [if_neg hage] at hp
      obtain ⟨i', line', h1, h2, h3, h4, h5⟩ := ih count p hp
      exact ⟨i', line', List.mem_cons_of_mem _ h1, h2, h3, h4, h5⟩
    case pos =>
      rw [if_pos hage] at hp
      match hpa : parseAgeStr line with
      | none =>
        rw [hpa] at hp
        obtain ⟨i', line', h1, h2, h3, h4, h5⟩ := ih count p hp
        exact ⟨i', line', List.mem_cons_of_mem _ h1, h2, h3, h4, h5⟩
      | some age =>
        rw [hpa] at hp
        match hlb : lookBack lines none none (backIdxs i s) with
        | (none, fi0) =>
          rw [hlb] at hp
          obtain ⟨i', line', h1, h2, h3, h4, h5⟩ := ih count p hp
          exact ⟨i', line', List.mem_cons_of_mem _ h1, h2, h3, h4, h5⟩
        | (some fn, none) =>
          rw [hlb] at hp
          obtain ⟨i', line', h1, h2, h3, h4, h5⟩ := ih count p hp
          exact ⟨i', line', List.mem_cons_of_mem _ h1, h2, h3, h4, h5⟩
        | (some fn, some fi) =>
          obtain ⟨jn, nm⟩ := fn
          obtain ⟨ji, gid, il⟩ := fi
          rw [hlb] at hp
          dsimp only at hp
          have hcase : p = ⟨ji, gid, nm, age, jn, il⟩ ∨ p ∈ findFrom lines s mb (count + 1) rest := by
            by_cases hmx : maxReached mb (count + 1) = true
            · rw [if_pos hmx] at hp
              exact Or.inl (List.mem_singleton.mp hp)
            · rw [if_neg hmx] at hp
              exact List.mem_cons.mp hp
          rcases hcase with hpeq | hrec
          · refine ⟨i, line, List.mem_cons_self _ _, hage, ?_, ?_, ?_⟩
            · simp [hpeq, hpa]
            · simp [hpeq, hlb]
            · simp [hpeq, hlb]
          · obtain ⟨i', line', h1, h2, h3, h4, h5⟩ := ih (count + 1) p hrec
            exact ⟨i', line', List.mem_cons_of_mem _ h1, h2, h3, h4, h5⟩

/-- Membership in an enumeration determines the element by `getD` lookup. -/
theorem enumFrom_mem_getD :
    ∀ (l : List String) (n i : Nat) (x : String),
      (i, x) ∈ l.enumFrom n → n ≤ i ∧ i - n < l.length ∧ l.getD (i - n) "" = x := by
  intro l
  induction l with
  | nil => intro n i x h; simp at h
  | cons a l ih =>
    intro n i x h
    rw [List.enumFrom_cons] at h
    rcases List.mem_cons.mp h with h1 | h1
    · obtain ⟨hi, hx⟩ := Prod.mk.injEq .. |>.mp h1
      refine ⟨by omega, by simp [hi], ?_⟩
      rw [hi, Nat.sub_self]
      simp [hx]
    · obtain ⟨h2, h3, h4⟩ := ih (n + 1) i x h1
      refine ⟨by omega, by simp; omega, ?_⟩
      have hin : i - n = (i - (n + 1)) + 1 := by omega
      rw [hin]
      simpa using h4

/-- Lookup with default through `drop`. -/
theorem getD_drop_eq (l : List String) (s k : Nat) :
    (l.drop s).getD k "" = l.getD (s + k) "" := by
  rw [List.getD_eq_getElem?_getD, List.getD_eq_getElem?_getD, List.getElem?_drop]

/-- The full invariant of every match the matcher emits: an age line exists
within nine lines above both stored indices, both indices are at or after the
start offset and strictly before the age line, the stored name is the stripped
name line, passes the single-token test and contains no image placeholder, and
the stored image line is the stripped placeholder line whose regular
expression yields the stored image id. -/
theorem find_mem_spec (lines : List String) (s : Nat) (mb : Option Nat)
    (p : BanditPattern) (hp : p ∈ find_bandit_patterns_in_lines lines s mb) :
    ∃ i, s ≤ i ∧ i < lines.length ∧
      strContains (lines.getD i "") "Age:" = true ∧
      parseAgeStr (lines.getD i "") = some p.age ∧
      s ≤ p.name_line_index ∧ p.name_line_index < i ∧ i ≤ p.name_line_index + 9 ∧
      s ≤ p.line_index ∧ p.line_index < i ∧ i ≤ p.line_index + 9 ∧
      p.name = pyStrip (lines.getD p.name_line_index "") ∧
      nameOk p.name = true ∧ strContains p.name "[IMAGE:" = false ∧
      p.name.isEmpty = false ∧
      p.image_line = pyStrip (lines.getD p.line_index "") ∧
      strContains p.image_line "[IMAGE:" = true ∧
      imageIdOf p.image_line = some p.image_id := by
  unfold find_bandit_patterns_in_lines at hp
  obtain ⟨i, line, hmem, hage, hpa, hlb1, hlb2⟩ := findFrom_mem lines s mb _ 0 p hp
  obtain ⟨hsi, hlen0, hgd⟩ := enumFrom_mem_getD _ s i line hmem
  rw [List.length_drop] at hlen0
  have hilen : i < lines.length := by omega
  have hline : lines.getD i "" = line := by
    rw [← hgd, getD_drop_eq]
    congr 1
    omega
  rcases lookBack_fst_spec lines (backIdxs i s) none none p.name_line_index p.name hlb1 with
    habs | ⟨hjmem, hname, hok, hnoimg, hne⟩
  · exact absurd habs (by simp)
  rcases lookBack_snd_spec lines (backIdxs i s) none none p.line_index p.image_id
      p.image_line hlb2 with habs | ⟨hkmem, hil, himg, hiid⟩
  · exact absurd habs (by simp)
  obtain ⟨hj1, hj2, hj3⟩ := mem_backIdxs hjmem
  obtain ⟨hk1, hk2, hk3⟩ := mem_backIdxs hkmem
  exact ⟨i, hsi, hilen, hline ▸ hage, hline ▸ hpa,
    hj1, hj3, hj2, hk1, hk3, hk2, hname, hok, hnoimg, hne, hil, himg, hiid⟩

/-- A successful age capture is a nonempty digit string. -/
theorem digitsAfterWs_spec (l ds : List Char) (h : digitsAfterWs l = some ds) :
    ds ≠ [] ∧ ds.all pyIsDigit = true := by
  unfold digitsAfterWs at h
  dsimp only at h
  split at h
  · exact absurd h (by simp)
  · injection h with h2
    subst h2
    constructor
    · intro hnil
      simp [hnil] at *
    · rw [List.all_eq_true]
      intro x hx
      exact List.mem_takeWhile_imp hx

/-- Case analysis note: the `isEmpty` test of the capture is on the taken
digit run, so the emptiness contradiction above needs the hypothesis kept. -/
theorem searchAge_spec :
    ∀ l ds : List Char, searchAge l = some ds → ds ≠ [] ∧ ds.all pyIsDigit = true := by
  intro l
  induction l with
  | nil => intro ds h; simp [searchAge] at h
  | cons c rest ih =>
    intro ds h
    rw [searchAge] at h
    split at h
    · match hda : digitsAfterWs ((c :: rest).drop 4) with
      | some ds2 =>
        rw [hda] at h
        injection h with h2
        subst h2
        exact digitsAfterWs_spec _ _ hda
      | none =>
        rw [hda] at h
        exact ih ds h
    · exact ih ds h

/-- Unfolding of a passed single-token name test. -/
theorem nameOk_spec (s : String) (h : nameOk s = true) :
    ∃ w, pySplitWs s.toList = [w] ∧ w.all pyIsAlpha = true ∧ 2 ≤ w.length ∧
      ∃ c cs, w = c :: cs ∧ pyIsUpper c = true := by
  unfold nameOk at h
  match hw : pySplitWs s.toList with
  | [] => rw [hw] at h; exact Bool.noConfusion h
  | w :: w2 :: rest => rw [hw] at h; exact Bool.noConfusion h
  | [w] =>
    rw [hw] at h
    match hwc : w with
    | [] => exact Bool.noConfusion h
    | c :: cs =>
      subst hwc
      have h2 : (pyIsUpper c && (c :: cs).all pyIsAlpha &&
          decide (1 < (c :: cs).length)) = true := h
      simp only [Bool.and_eq_true, decide_eq_true_eq] at h2
      exact ⟨c :: cs, rfl, h2.1.2, by simpa using h2.2, c, cs, rfl, h2.1.1⟩

/-- C9.  Every match record the matcher emits satisfies the invariants: the
name is a single whitespace-delimited all-alphabetic token of length at least
two starting with an uppercase character; the age is a nonempty decimal-digit
string; the name line index and image line index are distinct, both at least
the start offset and both within the nine lines strictly preceding an age
line; and the name (the stripped name line) contains no image placeholder. -/
theorem c9_match_invariants (lines : List String) (s : Nat) (mb : Option Nat)
    (p : BanditPattern) (hp : p ∈ find_bandit_patterns_in_lines lines s mb) :
    (∃ w, pySplitWs p.name.toList = [w] ∧ w.all pyIsAlpha = true ∧
      2 ≤ w.length ∧ ∃ c cs, w = c :: cs ∧ pyIsUpper c = true) ∧
    p.age ≠ "" ∧ p.age.toList.all pyIsDigit = true ∧
    p.name_line_index ≠ p.line_index ∧
    s ≤ p.name_line_index ∧ s ≤ p.line_index ∧
    (∃ i, i < lines.length ∧ parseAgeStr (lines.getD i "") = some p.age ∧
      p.name_line_index < i ∧ i ≤ p.name_line_index + 9 ∧
      p.line_index < i ∧ i ≤ p.line_index + 9) ∧
    strContains p.name "[IMAGE:" = false := by
  obtain ⟨i, hsi, hilen, hage, hpa, hn1, hn2, hn3, hk1, hk2, hk3,
    hname, hok, hnoimg, hne, hil, himg, hiid⟩ := find_mem_spec lines s mb p hp
  have hagechars : p.age ≠ "" ∧ p.age.toList.all pyIsDigit = true := by
    unfold parseAgeStr at hpa
    rcases Option.map_eq_some'.mp hpa with ⟨ds, hds, hmk⟩
    obtain ⟨hds1, hds2⟩ := searchAge_spec _ ds hds
    constructor
    · intro habs
      rw [← hmk] at habs
      have : ds = [] := by
        have := congrArg String.toList habs
        simpa using this
      exact hds1 this
    · rw [← hmk]
      exact hds2
  have hdistinct : p.name_line_index ≠ p.line_index := by
    intro habs
    rw [habs, ← hil] at hname
    rw [hname] at hnoimg
    rw [hnoimg] at himg
    cases himg
  exact ⟨nameOk_spec p.name hok, hagechars.1, hagechars.2, hdistinct, hn1, hk1,
    ⟨i, hilen, hpa, hn2, hn3, hk2, hk3⟩, hnoimg⟩

/-- Witness for C9 at the worked example's single match. -/
theorem c9_match_invariants_witness :
    (∃ w, pySplitWs demo6Pat.name.toList = [w] ∧ w.all pyIsAlpha = true ∧
      2 ≤ w.length ∧ ∃ c cs, w = c :: cs ∧ pyIsUpper c = true) ∧
    demo6Pat.age ≠ "" ∧ demo6Pat.age.toList.all pyIsDigit = true ∧
    demo6Pat.name_line_index ≠ demo6Pat.line_index ∧
    0 ≤ demo6Pat.name_line_index ∧ 0 ≤ demo6Pat.line_index ∧
    (∃ i, i < (pySplitLines demo6Text).length ∧
      parseAgeStr ((pySplitLines demo6Text).getD i "") = some demo6Pat.age ∧
      demo6Pat.name_line_index < i ∧ i ≤ demo6Pat.name_line_index + 9 ∧
      demo6Pat.line_index < i ∧ i ≤ demo6Pat.line_index + 9) ∧
    strContains demo6Pat.name "[IMAGE:" = false :=
  c9_match_invariants (pySplitLines demo6Text) 0 none demo6Pat (by decide)

/-- Membership in the duplicate-suppression fold: a key is collected exactly
when it is already present or is the key of some processed pattern. -/
theorem collect_foldl_mem (ps : List BanditPattern) :
    ∀ (acc : List String) (k : String),
      (k ∈ List.foldl
        (fun a p => if bandit_key p ∈ a then a else a ++ [bandit_key p]) acc ps) ↔
      (k ∈ acc ∨ ∃ p, p ∈ ps ∧ bandit_key p = k) := by
  induction ps with
  | nil => intro acc k; simp
  | cons p0 ps ih =>
    intro acc k
    rw [List.foldl_cons]
    by_cases hm : bandit_key p0 ∈ acc
    · rw [if_pos hm, ih]
      constructor
      · rintro (h | ⟨p, hp, hk⟩)
        · exact Or.inl h
        · exact Or.inr ⟨p, List.mem_cons_of_mem _ hp, hk⟩
      · rintro (h | ⟨p, hp, hk⟩)
        · exact Or.inl h
        · rcases List.mem_cons.mp hp with rfl | hp2
          · exact Or.inl (hk ▸ hm)
          · exact Or.inr ⟨p, hp2, hk⟩
    · rw [if_neg hm, ih]
      constructor
      · rintro (h | ⟨p, hp, hk⟩)
        · rcases List.mem_append.mp h with h2 | h2
          · exact Or.inl h2
          · exact Or.inr ⟨p0, List.mem_cons_self _ _, (List.mem_singleton.mp h2).symm⟩
        · exact Or.inr ⟨p, List.mem_cons_of_mem _ hp, hk⟩
      · rintro (h | ⟨p, hp, hk⟩)
        · exact Or.inl (List.mem_append_left _ h)
        · rcases List.mem_cons.mp hp with rfl | hp2
          · exact Or.inl (List.mem_append_right _ (by simp [hk]))
          · exact Or.inr ⟨p, hp2, hk⟩

/-- The duplicate-suppression fold preserves key uniqueness. -/
theorem collect_foldl_nodup (ps : List BanditPattern) :
    ∀ acc : List String, acc.Nodup →
      (List.foldl
        (fun a p => if bandit_key p ∈ a then a else a ++ [bandit_key p]) acc ps).Nodup := by
  induction ps with
  | nil => intro acc h; simpa using h
  | cons p0 ps ih =>
    intro acc h
    rw [List.foldl_cons]
    by_cases hm : bandit_key p0 ∈ acc
    · rw [if_pos hm]; exact ih acc h
    · rw [if_neg hm]
      refine ih _ (List.Nodup.append h (List.nodup_singleton _) ?_)
      intro a ha hb
      exact hm (List.mem_singleton.mp hb ▸ ha)

/-- Every non-whitespace character of a line lands in one of its whitespace
split tokens. -/
theorem pySplitWsAux_token_of_mem :
    ∀ (l cur : List Char) (c : Char), (c ∈ cur ∨ c ∈ l) → pyIsSpace c = false →
      ∃ w, w ∈ pySplitWsAux cur l ∧ c ∈ w := by
  intro l
  induction l with
  | nil =>
    intro cur c hc hs
    rcases hc with hc | hc
    · match cur with
      | [] => simp at hc
      | a :: t =>
        exact ⟨(a :: t).reverse, by simp [pySplitWsAux], List.mem_reverse.mpr hc⟩
    · simp at hc
  | cons c0 rest ih =>
    intro cur c hc hs
    by_cases hsp : pyIsSpace c0 = true
    · have hcc0 : c ≠ c0 := by
        intro habs
        rw [habs, hsp] at hs
        cases hs
      have hc2 : c ∈ cur ∨ c ∈ rest := by
        rcases hc with hc | hc
        · exact Or.inl hc
        · rcases List.mem_cons.mp hc with rfl | h2
          · exact absurd rfl hcc0
          · exact Or.inr h2
      match cur with
      | [] =>
        have hc3 : c ∈ rest := by
          rcases hc2 with h | h
          · simp at h
          · exact h
        obtain ⟨w, hw1, hw2⟩ := ih [] c (Or.inr hc3) hs
        exact ⟨w, by simpa [pySplitWsAux, hsp] using hw1, hw2⟩
      | a :: t =>
        rcases hc2 with hcur | hrest
        · refine ⟨(a :: t).reverse, ?_, List.mem_reverse.mpr hcur⟩
          simp [pySplitWsAux, hsp]
        · obtain ⟨w, hw1, hw2⟩ := ih [] c (Or.inr hrest) hs
          refine ⟨w, ?_, hw2⟩
          have hstep : pySplitWsAux (a :: t) (c0 :: rest) =
              (a :: t).reverse :: pySplitWsAux [] rest := by
            simp [pySplitWsAux, hsp]
          rw [hstep]
          exact List.mem_cons_of_mem _ hw1
    · have hsp2 : pyIsSpace c0 = false := Bool.eq_false_iff.mpr hsp
      have hc2 : c ∈ c0 :: cur ∨ c ∈ rest := by
        rcases hc with hcur | hcl
        · exact Or.inl (List.mem_cons_of_mem _ hcur)
        · rcases List.mem_cons.mp hcl with rfl | h2
          · exact Or.inl (List.mem_cons_self _ _)
          · exact Or.inr h2
      obtain ⟨w, hw1, hw2⟩ := ih (c0 :: cur) c hc2 hs
      refine ⟨w, ?_, hw2⟩
      simpa [pySplitWsAux, hsp2] using hw1

/-- Every non-whitespace character of a line lands in one of its whitespace
split tokens (top level). -/
theorem mem_token_of_mem (l : List Char) (c : Char) (hc : c ∈ l)
    (hs : pyIsSpace c = false) : ∃ w, w ∈ pySplitWs l ∧ c ∈ w :=
  pySplitWsAux_token_of_mem l [] c (Or.inr hc) hs

/-- Unique decomposition of a string list at the first separator, when neither
left part contains the separator. -/
theorem underscore_split_inj :
    ∀ (xs xs' ys ys' : List Char), '_' ∉ xs → '_' ∉ xs' →
      xs ++ '_' :: ys = xs' ++ '_' :: ys' → xs = xs' ∧ ys = ys' := by
  intro xs
  induction xs with
  | nil =>
    intro xs' ys ys' hx hx' h
    match xs' with
    | [] => simpa using h
    | c :: rest =>
      simp only [List.nil_append, List.cons_append, List.cons.injEq] at h
      rw [h.1] at hx'
      exact absurd (List.mem_cons_self _ _) hx'
  | cons x xs ih =>
    intro xs' ys ys' hx hx' h
    match xs' with
    | [] =>
      simp only [List.nil_append, List.cons_append, List.cons.injEq] at h
      rw [← h.1] at hx
      exact absurd (List.mem_cons_self _ _) hx
    | c :: rest =>
      simp only [List.cons_append, List.cons.injEq] at h
      obtain ⟨hxc, h2⟩ := h
      have hx2 : '_' ∉ xs := fun hh => hx (List.mem_cons_of_mem _ hh)
      have hx2' : '_' ∉ rest := fun hh => hx' (List.mem_cons_of_mem _ hh)
      obtain ⟨he1, he2⟩ := ih rest ys ys' hx2 hx2' h2
      exact ⟨by rw [hxc, he1], he2⟩

/-- Strings with equal character lists are equal. -/
theorem str_toList_inj (a b : String) (h : a.toList = b.toList) : a = b := by
  cases a with
  | mk da =>
    cases b with
    | mk db => exact congrArg String.mk (show da = db from h)

/-- Character-list form of the composite record key. -/
theorem bandit_key_toList (p : BanditPattern) :
    (bandit_key p).toList =
      p.name.toList ++ '_' :: (p.age.toList ++ '_' :: p.image_id.toList) := by
  show (p.name ++ "_" ++ p.age ++ "_" ++ p.image_id).data = _
  simp [String.data_append]

/-- The composite key determines the (name, age, image id) triple when name
and age contain no underscore. -/
theorem bandit_key_inj (p q : BanditPattern)
    (hpn : '_' ∉ p.name.toList) (hqn : '_' ∉ q.name.toList)
    (hpa : '_' ∉ p.age.toList) (hqa : '_' ∉ q.age.toList)
    (h : bandit_key p = bandit_key q) :
    p.name = q.name ∧ p.age = q.age ∧ p.image_id = q.image_id := by
  have hl := congrArg String.toList h
  rw [bandit_key_toList, bandit_key_toList] at hl
  obtain ⟨h1, h2⟩ := underscore_split_inj _ _ _ _ hpn hqn hl
  obtain ⟨h3, h4⟩ := underscore_split_inj _ _ _ _ hpa hqa h2
  exact ⟨str_toList_inj _ _ h1, str_toList_inj _ _ h3, str_toList_inj _ _ h4⟩

/-- Matched names and ages never contain an underscore (names are alphabetic
tokens, ages are digit strings). -/
theorem find_mem_underscore_free (lines : List String) (s : Nat)
    (mb : Option Nat) (p : BanditPattern)
    (hp : p ∈ find_bandit_patterns_in_lines lines s mb) :
    '_' ∉ p.name.toList ∧ '_' ∉ p.age.toList := by
  obtain ⟨i, h1, h2, h3, hpa, h5, h6, h7, h8, h9, h10, h11, hok, h13, h14,
    h15, h16, h17⟩ := find_mem_spec lines s mb p hp
  constructor
  · intro hmem
    obtain ⟨w, hw, hall, hlen, hcc⟩ := nameOk_spec p.name hok
    obtain ⟨w2, hw2, hcw⟩ := mem_token_of_mem p.name.toList '_' hmem (by decide)
    rw [hw, List.mem_singleton] at hw2
    subst hw2
    have := List.all_eq_true.mp hall _ hcw
    exact absurd this (by decide)
  · intro hmem
    unfold parseAgeStr at hpa
    rcases Option.map_eq_some'.mp hpa with ⟨ds, hds, hmk⟩
    obtain ⟨hne, hall⟩ := searchAge_spec _ ds hds
    have hds2 : p.age.toList = ds := by
      rw [← hmk]
      rfl
    rw [hds2] at hmem
    have := List.all_eq_true.mp hall _ hmem
    exact absurd this (by decide)

/-- C3.  Over the matcher's output, duplicate suppression is by exact equality
of the full composite key: collected keys are unique, a key is collected
exactly when some emitted pattern carries it (so identical triples collapse to
one entry), and two emitted patterns have equal keys exactly when they agree
on all of name, age, and image id (so triples differing only in image id are
both retained). -/
theorem c3_dedup_by_composite_key (lines : List String) (s : Nat)
    (mb : Option Nat) :
    (collectBandits (find_bandit_patterns_in_lines lines s mb)).Nodup ∧
    (∀ k, k ∈ collectBandits (find_bandit_patterns_in_lines lines s mb) ↔
      ∃ p, p ∈ find_bandit_patterns_in_lines lines s mb ∧ bandit_key p = k) ∧
    (∀ p, p ∈ find_bandit_patterns_in_lines lines s mb →
      ∀ q, q ∈ find_bandit_patterns_in_lines lines s mb →
        (bandit_key p = bandit_key q ↔
          p.name = q.name ∧ p.age = q.age ∧ p.image_id = q.image_id)) := by
  refine ⟨collect_foldl_nodup _ [] List.nodup_nil, ?_, ?_⟩
  · intro k
    unfold collectBandits
    rw [collect_foldl_mem]
    simp
  · intro p hp q hq
    constructor
    · intro h
      obtain ⟨hpn, hpa⟩ := find_mem_underscore_free lines s mb p hp
      obtain ⟨hqn, hqa⟩ := find_mem_underscore_free lines s mb q hq
      exact bandit_key_inj p q hpn hqn hpa hqa h
    · rintro ⟨e1, e2, e3⟩
      unfold bandit_key
      rw [e1, e2, e3]

/-- Witness for C3 at the worked example: the collected key list and the key
equivalence at the example's single match. -/
theorem c3_dedup_by_composite_key_witness :
    (collectBandits
      (find_bandit_patterns_in_lines (pySplitLines demo6Text) 0 none)).Nodup ∧
    ("Maria_30_img_01" ∈ collectBandits
        (find_bandit_patterns_in_lines (pySplitLines demo6Text) 0 none) ↔
      ∃ p, p ∈ find_bandit_patterns_in_lines (pySplitLines demo6Text) 0 none ∧
        bandit_key p = "Maria_30_img_01") ∧
    (bandit_key demo6Pat = bandit_key demo6Pat ↔
      demo6Pat.name = demo6Pat.name ∧ demo6Pat.age = demo6Pat.age ∧
        demo6Pat.image_id = demo6Pat.image_id) :=
  ⟨(c3_dedup_by_composite_key (pySplitLines demo6Text) 0 none).1,
   (c3_dedup_by_composite_key (pySplitLines demo6Text) 0 none).2.1 _,
   (c3_dedup_by_composite_key (pySplitLines demo6Text) 0 none).2.2 demo6Pat
     (by decide) demo6Pat (by decide)⟩

/-- Whitespace splitting never produces an empty token. -/
theorem pySplitWsAux_ne_nil : ∀ (l cur : List Char), [] ∉ pySplitWsAux cur l := by
  intro l
  induction l with
  | nil =>
    intro cur
    match cur with
    | [] => simp [pySplitWsAux]
    | a :: t => simp [pySplitWsAux]
  | cons c0 rest ih =>
    intro cur
    by_cases hsp : pyIsSpace c0 = true
    · match cur with
      | [] => simpa [pySplitWsAux, hsp] using ih []
      | a :: t =>
        have hrec := ih ([] : List Char)
        simp only [pySplitWsAux, hsp, if_true, List.isEmpty_cons, Bool.false_eq_true,
          if_false, List.mem_cons]
        rintro (h | h)
        · exact absurd h.symm (by simp)
        · exact hrec h
    · have hsp2 : pyIsSpace c0 = false := Bool.eq_false_iff.mpr hsp
      simpa [pySplitWsAux, hsp2] using ih (c0 :: cur)

/-- Whitespace splitting never produces an empty token (top level). -/
theorem pySplitWs_ne_nil (l : List Char) : [] ∉ pySplitWs l :=
  pySplitWsAux_ne_nil l []

/-- The checked name test never fails: the single token it indexes into is
never empty. -/
theorem nameOkChecked_eq (ls : String) : nameOkChecked ls = some (nameOk ls) := by
  unfold nameOkChecked nameOk
  match hw : pySplitWs ls.toList with
  | [] => rfl
  | w :: w2 :: rest => rfl
  | [w] =>
    match hwc : w with
    | c :: cs => rfl
    | [] =>
      exfalso
      have hmem : ([] : List Char) ∈ pySplitWs ls.toList := by
        rw [hw]
        exact List.mem_singleton_self _
      exact pySplitWs_ne_nil _ hmem

/-- On an in-bounds index list, the checked backward scan never fails and
agrees with the plain one. -/
theorem lookBackChecked_eq (lines : List String) :
    ∀ (idxs : List Nat), (∀ j ∈ idxs, j < lines.length) →
      ∀ fn fi, lookBackChecked lines fn fi idxs = some (lookBack lines fn fi idxs) := by
  intro idxs
  induction idxs with
  | nil => intro _ fn fi; rfl
  | cons j rest ih =>
    intro hb fn fi
    have hj : j < lines.length := hb j (List.mem_cons_self _ _)
    have hrest : ∀ j2 ∈ rest, j2 < lines.length :=
      fun j2 hj2 => hb j2 (List.mem_cons_of_mem _ hj2)
    have hget : lines.get? j = some (lines.getD j "") := by
      simp [List.get?_eq_getElem?, List.getElem?_eq_getElem hj,
        List.getD_eq_getElem?_getD]
    rw [lookBackChecked, lookBack, hget]
    simp only [Option.bind_eq_bind, Option.some_bind]
    by_cases hc : (fn.isNone && !(pyStrip (lines.getD j "")).isEmpty &&
        !strContains (pyStrip (lines.getD j "")) "[IMAGE:") = true
    · rw [if_pos hc, nameOkChecked_eq]
      simp only [Option.some_bind]
      set F := if fn.isNone && !(pyStrip (lines.getD j "")).isEmpty &&
          !strContains (pyStrip (lines.getD j "")) "[IMAGE:" &&
          nameOk (pyStrip (lines.getD j ""))
        then some (j, pyStrip (lines.getD j "")) else fn with hF
      set G := if strContains (pyStrip (lines.getD j "")) "[IMAGE:" && fi.isNone then
          match imageIdOf (pyStrip (lines.getD j "")) with
          | some g => some (j, g, pyStrip (lines.getD j ""))
          | none => fi
        else fi with hG
      by_cases hbk : (F.isSome && G.isSome) = true
      · rw [if_pos hbk, if_pos hbk]
      · rw [if_neg hbk, if_neg hbk]
        exact ih hrest F G
    · rw [if_neg hc]
      try simp only [Option.some_bind]
      have hcf : (fn.isNone && !(pyStrip (lines.getD j "")).isEmpty &&
          !strContains (pyStrip (lines.getD j "")) "[IMAGE:") = false :=
        Bool.eq_false_iff.mpr hc
      rw [hcf]
      simp only [Bool.false_and, Bool.and_false, Bool.false_eq_true, if_false]
      set G := if strContains (pyStrip (lines.getD j "")) "[IMAGE:" && fi.isNone then
          match imageIdOf (pyStrip (lines.getD j "")) with
          | some g => some (j, g, pyStrip (lines.getD j ""))
          | none => fi
        else fi with hG
      by_cases hbk : (fn.isSome && G.isSome) = true
      · rw [if_pos hbk, if_pos hbk]
      · rw [if_neg hbk, if_neg hbk]
        exact ih hrest fn G

/-- On pairs with in-bounds indices, the checked scan never fails and agrees
with the plain one. -/
theorem findFromChecked_eq (lines : List String) (s : Nat) (mb : Option Nat) :
    ∀ (pairs : List (Nat × String)), (∀ pr ∈ pairs, pr.1 < lines.length) →
      ∀ count, findFromChecked lines s mb count pairs =
        some (findFrom lines s mb count pairs) := by
  intro pairs
  induction pairs with
  | nil => intro _ count; rfl
  | cons pr rest ih =>
    intro hb count
    obtain ⟨i, line⟩ := pr
    have hi : i < lines.length := hb (i, line) (List.mem_cons_self _ _)
    have hrest : ∀ pr2 ∈ rest, pr2.1 < lines.length :=
      fun pr2 hpr2 => hb pr2 (List.mem_cons_of_mem _ hpr2)
    have hbk : ∀ j ∈ backIdxs i s, j < lines.length := by
      intro j hj
      have := (mem_backIdxs hj).2.2
      omega
    rw [findFromChecked, findFrom]
    by_cases hage : strContains line "Age:" = true
    · rw [if_pos hage, if_pos hage]
      match hpa : parseAgeStr line with
      | none =>
        exact ih hrest count
      | some age =>
        rw [lookBackChecked_eq lines (backIdxs i s) hbk none none]
        match hlb : lookBack lines none none (backIdxs i s) with
        | (none, fi0) =>
          exact ih hrest count
        | (some fn, none) =>
          exact ih hrest count
        | (some fn, some fi) =>
          dsimp only
          by_cases hmx : maxReached mb (count + 1) = true
          · rw [if_pos hmx, if_pos hmx]
          · rw [if_neg hmx, if_neg hmx, ih hrest (count + 1)]
    · rw [if_neg hage, if_neg hage]
      exact ih hrest count

/-- C10.  The matcher is total: with the start offset within bounds, the
checked variant, in which every Python list indexing is explicit, never
returns `none` — every line access is within bounds (the backward window is
clamped by the start offset and the enumeration by end of input, and the
single-character name test only ever reaches nonempty tokens) — and it agrees
with the plain matcher, which always returns a finite list. -/
theorem c10_matcher_total (lines : List String) (s : Nat) (mb : Option Nat)
    (h : s ≤ lines.length) :
    find_bandit_patterns_checked lines s mb =
      some (find_bandit_patterns_in_lines lines s mb) := by
  unfold find_bandit_patterns_checked find_bandit_patterns_in_lines
  apply findFromChecked_eq
  intro pr hpr
  obtain ⟨i, x⟩ := pr
  obtain ⟨h1, h2, h3⟩ := List.mem_enumFrom hpr
  rw [List.length_drop] at h2
  simp only
  omega

/-- Witness for C10 at the worked example. -/
theorem c10_matcher_total_witness :
    0 ≤ (pySplitLines demo6Text).length ∧
    find_bandit_patterns_checked (pySplitLines demo6Text) 0 none =
      some (find_bandit_patterns_in_lines (pySplitLines demo6Text) 0 none) :=
  ⟨by decide, c10_matcher_total (pySplitLines demo6Text) 0 none (by decide)⟩

end Bandits
